import Mathlib

/-!
Verification of the `@ts-stack/type-is` media-type matching library.

The definitions below are a shallow embedding of `src/type-is.ts`:
`is`, `typeIs`, `hasBody`, `normalize`, `mimeMatch`, `normalizeType` and
`tryNormalizeType`.  The library delegates content-type parsing to the
`content-type` package (an implementation of the RFC 7231 `Content-Type`
grammar, see spec section 4.1) and extension lookup to the `mime-types`
registry (spec sections 4.2 and 6); those two collaborators are modelled
here as executable Lean functions.  JavaScript strings are modelled as
`String` / `List Char`; JavaScript `undefined`/`null`/absent values are
modelled with `Option`;  runtime values that may not be strings (pattern
tokens) are modelled by the sum type `PatToken`.
-/

namespace TypeIs

/-- The uppercase ASCII letters. -/
def upperAsciiChars : List Char :=
  ['A', 'B', 'C', 'D', 'E', 'F', 'G', 'H', 'I', 'J', 'K', 'L', 'M',
   'N', 'O', 'P', 'Q', 'R', 'S', 'T', 'U', 'V', 'W', 'X', 'Y', 'Z']

/-- Uppercase ASCII letters, used to talk about case sensitivity. -/
def isUpperAscii (c : Char) : Bool :=
  upperAsciiChars.contains c

/-- ASCII lowercasing of a single character.  The `content-type` package
applies JavaScript `toLowerCase` to the parsed media type, which has already
been validated to consist of ASCII token characters only, so the ASCII
table is a faithful model on every reachable input. -/
def lowerChar (c : Char) : Char :=
  if c = 'A' then 'a' else if c = 'B' then 'b' else if c = 'C' then 'c' else
  if c = 'D' then 'd' else if c = 'E' then 'e' else if c = 'F' then 'f' else
  if c = 'G' then 'g' else if c = 'H' then 'h' else if c = 'I' then 'i' else
  if c = 'J' then 'j' else if c = 'K' then 'k' else if c = 'L' then 'l' else
  if c = 'M' then 'm' else if c = 'N' then 'n' else if c = 'O' then 'o' else
  if c = 'P' then 'p' else if c = 'Q' then 'q' else if c = 'R' then 'r' else
  if c = 'S' then 's' else if c = 'T' then 't' else if c = 'U' then 'u' else
  if c = 'V' then 'v' else if c = 'W' then 'w' else if c = 'X' then 'x' else
  if c = 'Y' then 'y' else if c = 'Z' then 'z' else c

/-- RFC 7230 `token` characters, as in the `TYPE_REGEXP` and `PARAM_REGEXP`
character class of the `content-type` package:
alphanumerics and `! # $ % & ' * + . ^ _ \x60 | ~ -`. -/
def isTokenChar (c : Char) : Bool :=
  c.isAlphanum || c = '!' || c = '#' || c = '$' || c = '%' || c = '&' ||
  c = Char.ofNat 39 || c = '*' || c = '+' || c = '.' || c = '^' || c = '_' ||
  c = Char.ofNat 96 || c = '|' || c = '~' || c = '-'

/-- JavaScript whitespace (the characters recognised by `String.trim` and
by `ToNumber`); restricted to the common subset, which covers every input
the claims exercise. -/
def isJsWs (c : Char) : Bool :=
  c = Char.ofNat 9 || c = Char.ofNat 10 || c = Char.ofNat 11 || c = Char.ofNat 12 ||
  c = Char.ofNat 13 || c = ' ' || c = Char.ofNat 160 || c = Char.ofNat 0x2028 ||
  c = Char.ofNat 0x2029 || c = Char.ofNat 0xFEFF

/-- JavaScript `String.trim`. -/
def trimJs (l : List Char) : List Char :=
  ((l.dropWhile isJsWs).reverse.dropWhile isJsWs).reverse

/-- `qdtext` characters of a quoted parameter value, the first alternative
of the value group in `PARAM_REGEXP`:
`\x0b \x20 \x21 \x23-\x5b \x5d-\x7e \x80-\xff`. -/
def isQdText (c : Char) : Bool :=
  c.toNat = 11 || c.toNat = 32 || c.toNat = 33 ||
  (35 ≤ c.toNat && c.toNat ≤ 91) || (93 ≤ c.toNat && c.toNat ≤ 126) ||
  (128 ≤ c.toNat && c.toNat ≤ 255)

/-- Characters allowed after a backslash escape inside a quoted parameter
value: `\x0b` and `\x20-\xff`. -/
def isQdEsc (c : Char) : Bool :=
  c.toNat = 11 || (32 ≤ c.toNat && c.toNat ≤ 255)

/-- TYPE_REGEXP of the `content-type` package:
`^token+ / token+ $` (exactly one slash, both sides non-empty token runs;
a token character is never `/`, so token runs exclude further slashes). -/
def isTypeSubtype (l : List Char) : Bool :=
  let pre := l.takeWhile (fun c => c ≠ '/')
  let post := (l.dropWhile (fun c => c ≠ '/')).drop 1
  l.contains '/' && (!pre.isEmpty) && (!post.isEmpty) &&
    pre.all isTokenChar && post.all isTokenChar

/-- States of the parameter-section scanner.  The `content-type` package
matches the section after the first `;` by repeatedly applying
`PARAM_REGEXP` = `; *token+ *= *(quoted|token+) *` at the current index and
finally requires the matches to cover the whole rest of the header.  That
regular language is recognised by this automaton. -/
inductive PState where
  | start  -- expecting the leading semicolon of the next parameter
  | key0   -- spaces before the parameter name
  | key    -- inside the parameter name
  | eq0    -- spaces before the equals sign
  | val0   -- spaces before the value
  | vtok   -- inside a token value
  | vq     -- inside a quoted value
  | vqe    -- just after a backslash inside a quoted value
  | avt    -- spaces after a complete value
deriving DecidableEq

/-- One scanner step over the parameter section. -/
def pstep (s : PState) (c : Char) : Option PState :=
  match s with
  | .start => if c = ';' then some .key0 else none
  | .key0 => if c = ' ' then some .key0 else
      if isTokenChar c then some .key else none
  | .key => if isTokenChar c then some .key else
      if c = ' ' then some .eq0 else if c = '=' then some .val0 else none
  | .eq0 => if c = ' ' then some .eq0 else
      if c = '=' then some .val0 else none
  | .val0 => if c = ' ' then some .val0 else
      if c = '"' then some .vq else
      if isTokenChar c then some .vtok else none
  | .vtok => if isTokenChar c then some .vtok else
      if c = ' ' then some .avt else
      if c = ';' then some .key0 else none
  | .vq => if c = '"' then some .avt else
      if c = '\\' then some .vqe else
      if isQdText c then some .vq else none
  | .vqe => if isQdEsc c then some .vq else none
  | .avt => if c = ' ' then some .avt else
      if c = ';' then some .key0 else none

/-- Validity of the parameter section (everything from the first `;` on;
an empty section means the header had no parameters and is valid). -/
def paramsOk (l : List Char) : Bool :=
  match l with
  | [] => true
  | _ =>
    match l.foldl (fun st c => st.bind (fun s => pstep s c)) (some PState.start) with
    | some .vtok => true
    | some .avt => true
    | _ => false

/-- `normalizeType` of `src/type-is.ts`: parse the value with
`contentType.parse` (which takes the part before the first `;`, trims it,
validates it against `TYPE_REGEXP`, lowercases it, and validates the
parameter section), drop the parameters, and reformat.  A parse failure is
a thrown `TypeError`, modelled as `Except.error`. -/
def normalizeType (value : String) : Except Unit String :=
  if isTypeSubtype (trimJs (value.toList.takeWhile (fun c => c ≠ ';'))) &&
      paramsOk (value.toList.dropWhile (fun c => c ≠ ';')) then
    Except.ok (String.mk ((trimJs (value.toList.takeWhile (fun c => c ≠ ';'))).map lowerChar))
  else Except.error ()

/-- `tryNormalizeType` of `src/type-is.ts`: `null` for a missing or empty
value, and the thrown parse error is caught and converted to `null`. -/
def tryNormalizeType (value : Option String) : Option String :=
  match value with
  | none => none
  | some v =>
    if v = "" then none
    else
      match normalizeType v with
      | .ok s => some s
      | .error _ => none

/-- Modelled from the spec: the static extension → canonical-media-type
registry of section 4.2 step 5 and section 6 (the `mime-types` package,
whose sources are not part of this repository).  Only entries exercised by
the repository and its tests are listed; the spec names `json` →
`application/json` and `png` → `image/png` explicitly. -/
def mimeDb : List (String × String) :=
  [("json", "application/json"), ("png", "image/png"),
   ("html", "text/html"), ("txt", "text/plain"),
   ("gif", "image/gif"), ("jpeg", "image/jpeg"),
   ("xml", "application/xml")]

/-- Extension extraction of `mime.lookup`: the part after the last dot
(the whole string when there is no dot, so a leading dot as in `.png` is
stripped), lowercased — the registry lookup is case-insensitive. -/
def extOf (s : String) : String :=
  String.mk (((s.toList.map lowerChar).reverse.takeWhile (fun c => c ≠ '.')).reverse)

/-- Modelled from the spec: `mime.lookup` — look the extension up in the
registry, `false` (here `none`) when unregistered (spec section 4.2
step 5). -/
def mimeLookup (s : String) : Option String :=
  mimeDb.lookup (extOf s)

/-- A pattern-list entry as supplied by a JavaScript caller: either a
string, or some non-string value (boolean, null, function, object, …),
which the code must treat as never matching. -/
inductive PatToken where
  | str (s : String)
  | other
deriving DecidableEq

/-- JavaScript `s[0] === c` (false on the empty string). -/
def jsFirstCharIs (s : String) (c : Char) : Bool :=
  match s.toList with
  | [] => false
  | d :: _ => d = c

/-- JavaScript `s.indexOf(c) !== -1`. -/
def jsContainsChar (s : String) (c : Char) : Bool :=
  s.toList.contains c

/-- `normalize` of `src/type-is.ts`: `false` (here `none`) for
non-strings; the aliases `urlencoded` and `multipart`; `+suffix` expansion
to `*/*+suffix`; pass-through for tokens containing a slash; registry
lookup otherwise. -/
def normalize (t : PatToken) : Option String :=
  match t with
  | .other => none
  | .str s =>
    if s = "urlencoded" then some "application/x-www-form-urlencoded"
    else if s = "multipart" then some "multipart/*"
    else if jsFirstCharIs s '+' then some ("*/*" ++ s)
    else if jsContainsChar s '/' then some s
    else mimeLookup s

/-- JavaScript `String.split('/')` on a character list: splits at every
slash, keeping empty segments; the empty string yields one empty
segment. -/
def splitSlash : List Char → List (List Char)
  | [] => [[]]
  | c :: rest =>
    if c = '/' then [] :: splitSlash rest
    else
      match splitSlash rest with
      | [] => [[c]]
      | h :: t => (c :: h) :: t

/-- JavaScript one-argument `slice(start)` on a character list: a negative
start counts from the end, clamped at 0. -/
def jsSliceFrom (l : List Char) (start : Int) : List Char :=
  let n : Int := l.length
  let b : Int := if start < 0 then max (n + start) 0 else min start n
  l.drop b.toNat

/-- `mimeMatch` of `src/type-is.ts`.  `expected = none` models the
JavaScript `false` sentinel produced by a failed `normalize`. -/
def mimeMatch (expected : Option String) (actual : String) : Bool :=
  match expected with
  | none => false
  | some exp =>
    match splitSlash exp.toList, splitSlash actual.toList with
    | [e0, e1], [a0, a1] =>
      if e0 ≠ ['*'] ∧ e0 ≠ a0 then false
      else if e1.take 2 = ['*', '+'] then
        decide (e1.length ≤ a1.length + 1 ∧
          e1.drop 1 = jsSliceFrom a1 (1 - (e1.length : Int)))
      else if e1 ≠ ['*'] ∧ e1 ≠ a1 then false
      else true
    | _, _ => false

/-- The string reported for the matching pattern token (`src/type-is.ts`
line 74): the normalized actual media type when the raw token starts with
`+` or contains a `*`, the raw token itself otherwise.  The `.other`
branch is unreachable (non-strings never match); in JavaScript it would
fault, which the `Except`-instrumented `isLoopX` below records. -/
def matchResult (t : PatToken) (actual : String) : String :=
  match t with
  | .str s =>
    if jsFirstCharIs s '+' || jsContainsChar s '*' then actual else s
  | .other => actual

/-- The pattern loop of `is` (`src/type-is.ts` lines 70-76). -/
def isLoop (actual : String) : List PatToken → Option String
  | [] => none
  | t :: rest =>
    if mimeMatch (normalize t) actual then some (matchResult t actual)
    else isLoop actual rest

/-- `is` of `src/type-is.ts`.  `none` models the JavaScript `false`
result.  The variadic-argument adapter is API sugar (spec section 9) and
is not modelled; `acceptable` is always the pattern list, with the absent
case equal to the empty list. -/
def is (actual? : Option String) (acceptable : List PatToken) : Option String :=
  match tryNormalizeType actual? with
  | none => none
  | some actual =>
    match acceptable with
    | [] => some actual
    | ps => isLoop actual ps

/-- A header map: association list from (lowercase) header names to string
values; an absent key models both a missing header and a JavaScript
`undefined` value. -/
def Headers := List (String × String)

/-- Header lookup (`headers[name]`). -/
def hLookup (h : Headers) (k : String) : Option String :=
  List.lookup k h

/-- Numeric-literal body of JavaScript `ToNumber` after trimming:
`0x`/`0o`/`0b` integers, or a signed decimal / `Infinity`. -/
def isHexDig (c : Char) : Bool :=
  c.isDigit || (97 ≤ c.toNat && c.toNat ≤ 102) || (65 ≤ c.toNat && c.toNat ≤ 70)

/-- Octal digit. -/
def isOctDig (c : Char) : Bool :=
  48 ≤ c.toNat && c.toNat ≤ 55

/-- Binary digit. -/
def isBinDig (c : Char) : Bool :=
  c = '0' || c = '1'

/-- Exponent part of a decimal literal: empty, or `e`/`E`, an optional
sign, and a non-empty digit run consuming the rest. -/
def expOk : List Char → Bool
  | [] => true
  | c :: rest =>
    (c = 'e' || c = 'E') &&
    (match rest with
     | d :: rest2 =>
       if d = '+' || d = '-' then (!rest2.isEmpty) && rest2.all Char.isDigit
       else (!rest.isEmpty) && rest.all Char.isDigit
     | [] => false)

/-- Unsigned decimal literal: `Infinity`, or digits with an optional
fraction and exponent (at least one digit around the dot). -/
def unsignedDec (l : List Char) : Bool :=
  if l = "Infinity".toList then true
  else
    let ds := l.takeWhile Char.isDigit
    let rest := l.drop ds.length
    match rest with
    | [] => !ds.isEmpty
    | '.' :: r2 =>
      let fs := r2.takeWhile Char.isDigit
      let r3 := r2.drop fs.length
      ((!ds.isEmpty) || (!fs.isEmpty)) && expOk r3
    | _ => (!ds.isEmpty) && expOk rest

/-- Optionally signed decimal literal. -/
def signedDec (l : List Char) : Bool :=
  match l with
  | c :: rest => if c = '+' || c = '-' then unsignedDec rest else unsignedDec l
  | [] => false

/-- Numeric literal (the non-decimal radix forms admit no sign). -/
def jsNumericList (l : List Char) : Bool :=
  match l with
  | '0' :: c :: rest =>
    if c = 'x' || c = 'X' then (!rest.isEmpty) && rest.all isHexDig
    else if c = 'o' || c = 'O' then (!rest.isEmpty) && rest.all isOctDig
    else if c = 'b' || c = 'B' then (!rest.isEmpty) && rest.all isBinDig
    else signedDec l
  | _ => signedDec l

/-- Whether JavaScript `Number(s)` is a number rather than `NaN`
(ECMAScript `ToNumber` on strings: trim, empty means `0`, else a numeric
literal must consume the whole string). -/
def toNumberOk (s : String) : Bool :=
  let t := trimJs s.toList
  if t.isEmpty then true else jsNumericList t

/-- JavaScript `isNaN(v)` for `v : string | undefined`
(`Number(undefined)` is `NaN`). -/
def jsIsNaNStr (v : Option String) : Bool :=
  match v with
  | none => true
  | some s => !(toNumberOk s)

/-- `hasBody` of `src/type-is.ts`:
`headers[te] !== undefined || !isNaN(headers[cl] as number)`. -/
def hasBody (headers : Headers) : Bool :=
  (hLookup headers "transfer-encoding").isSome ||
    !(jsIsNaNStr (hLookup headers "content-length"))

/-- `typeIs` of `src/type-is.ts`.  `none` models the JavaScript `null`
result (no body); `some r` wraps the `is` result for the `content-type`
header value. -/
def typeIs (headers : Headers) (acceptable : List PatToken) : Option (Option String) :=
  if hasBody headers then some (is (hLookup headers "content-type") acceptable)
  else none

/-- The pattern loop instrumented with the JavaScript exception channel:
if a non-string token matched, `type[0]` / `type.indexOf` would raise a
`TypeError`. -/
def isLoopX (actual : String) : List PatToken → Except Unit (Option String)
  | [] => .ok none
  | t :: rest =>
    if mimeMatch (normalize t) actual then
      match t with
      | .str s =>
        .ok (some (if jsFirstCharIs s '+' || jsContainsChar s '*' then actual else s))
      | .other => .error ()
    else isLoopX actual rest

/-- `is` instrumented with the JavaScript exception channel.  The parse
exception of `normalizeType` is already caught inside `tryNormalizeType`
(the only `try`/`catch` in the source), so the remaining possible faults
are those of `isLoopX`. -/
def isX (actual? : Option String) (acceptable : List PatToken) :
    Except Unit (Option String) :=
  match tryNormalizeType actual? with
  | none => .ok none
  | some actual =>
    match acceptable with
    | [] => .ok (some actual)
    | ps => isLoopX actual ps

/-- `typeIs` instrumented with the JavaScript exception channel. -/
def typeIsX (headers : Headers) (acceptable : List PatToken) :
    Except Unit (Option (Option String)) :=
  if hasBody headers then
    match isX (hLookup headers "content-type") acceptable with
    | .ok r => .ok (some r)
    | .error e => .error e
  else .ok none

/-! ### Character-level facts -/

lemma upper_enum {c : Char} (h : isUpperAscii c = true) : c ∈ upperAsciiChars :=
  List.elem_iff.mp h

lemma not_mem_upper {c : Char} (h : isUpperAscii c = false) : c ∉ upperAsciiChars := by
  intro hm
  have ht : isUpperAscii c = true := List.elem_iff.mpr hm
  rw [ht] at h
  cases h

lemma lowerChar_eq_self {c : Char} (h : isUpperAscii c = false) : lowerChar c = c := by
  have n : ∀ d ∈ upperAsciiChars, c ≠ d := fun d hd he => not_mem_upper h (he ▸ hd)
  unfold lowerChar
  rw [if_neg (n 'A' (by decide)), if_neg (n 'B' (by decide)), if_neg (n 'C' (by decide)),
    if_neg (n 'D' (by decide)), if_neg (n 'E' (by decide)), if_neg (n 'F' (by decide)),
    if_neg (n 'G' (by decide)), if_neg (n 'H' (by decide)), if_neg (n 'I' (by decide)),
    if_neg (n 'J' (by decide)), if_neg (n 'K' (by decide)), if_neg (n 'L' (by decide)),
    if_neg (n 'M' (by decide)), if_neg (n 'N' (by decide)), if_neg (n 'O' (by decide)),
    if_neg (n 'P' (by decide)), if_neg (n 'Q' (by decide)), if_neg (n 'R' (by decide)),
    if_neg (n 'S' (by decide)), if_neg (n 'T' (by decide)), if_neg (n 'U' (by decide)),
    if_neg (n 'V' (by decide)), if_neg (n 'W' (by decide)), if_neg (n 'X' (by decide)),
    if_neg (n 'Y' (by decide)), if_neg (n 'Z' (by decide))]

lemma lowerChar_not_upper (c : Char) : isUpperAscii (lowerChar c) = false := by
  cases h : isUpperAscii c with
  | false => rw [lowerChar_eq_self h]; exact h
  | true =>
    have hm := upper_enum h
    fin_cases hm <;> decide

lemma lowerChar_idem (c : Char) : lowerChar (lowerChar c) = lowerChar c :=
  lowerChar_eq_self (lowerChar_not_upper c)

lemma isTokenChar_lowerChar {c : Char} (h : isTokenChar c = true) :
    isTokenChar (lowerChar c) = true := by
  cases hu : isUpperAscii c with
  | false => rw [lowerChar_eq_self hu]; exact h
  | true =>
    have hm := upper_enum hu
    fin_cases hm <;> decide

lemma isTokenChar_ne {c d : Char} (h : isTokenChar c = true)
    (hd : isTokenChar d = false) : c ≠ d := by
  intro he; subst he; rw [h] at hd; cases hd

lemma upper_ne {c d : Char} (h : isUpperAscii c = true)
    (hd : isUpperAscii d = false) : c ≠ d := by
  intro he; subst he; rw [h] at hd; cases hd

lemma isTokenChar_not_ws {c : Char} (h : isTokenChar c = true) : isJsWs c = false := by
  cases hws : isJsWs c with
  | false => rfl
  | true =>
    exfalso
    simp only [isJsWs, Bool.or_eq_true, decide_eq_true_eq] at hws
    rcases hws with ((((((((rfl | rfl) | rfl) | rfl) | rfl) | rfl) | rfl) | rfl) | rfl) | rfl <;>
      exact absurd h (by decide)

/-! ### List-level helpers -/

lemma takeWhile_of_all {p : Char → Bool} {l : List Char}
    (h : ∀ c ∈ l, p c = true) : l.takeWhile p = l :=
  List.takeWhile_eq_self_iff.mpr h

lemma dropWhile_of_none {p : Char → Bool} {l : List Char}
    (h : ∀ c ∈ l, p c = false) : l.dropWhile p = l := by
  cases l with
  | nil => rfl
  | cons c cs => rw [List.dropWhile_cons_of_neg]; simp [h c (by simp)]

lemma trimJs_of_no_ws {l : List Char} (h : ∀ c ∈ l, isJsWs c = false) :
    trimJs l = l := by
  have h1 : l.dropWhile isJsWs = l := dropWhile_of_none h
  have h2 : l.reverse.dropWhile isJsWs = l.reverse :=
    dropWhile_of_none (fun c hc => h c (List.mem_reverse.mp hc))
  unfold trimJs
  rw [h1, h2, List.reverse_reverse]

lemma trimJs_of_all_ws {l : List Char} (h : ∀ c ∈ l, isJsWs c = true) :
    trimJs l = [] := by
  have h1 : l.dropWhile isJsWs = [] := List.dropWhile_eq_nil_iff.mpr (fun c hc => h c hc)
  unfold trimJs
  rw [h1]
  rfl

lemma trimJs_sublist (l : List Char) : (trimJs l).Sublist l := by
  unfold trimJs
  have h1 : ((l.dropWhile isJsWs).reverse.dropWhile isJsWs).Sublist (l.dropWhile isJsWs).reverse :=
    List.dropWhile_sublist _
  have h2 := h1.reverse
  rw [List.reverse_reverse] at h2
  exact h2.trans (List.dropWhile_sublist _)

lemma takeWhile_middle {p : Char → Bool} {a : List Char} (x : Char) (b : List Char)
    (ha : ∀ c ∈ a, p c = true) (hx : p x = false) :
    (a ++ x :: b).takeWhile p = a ∧ (a ++ x :: b).dropWhile p = x :: b := by
  induction a with
  | nil => simp [List.takeWhile_cons, List.dropWhile_cons, hx]
  | cons c cs ih =>
    have hc : p c = true := ha c (by simp)
    have ih' := ih (fun d hd => ha d (by simp [hd]))
    simp [List.takeWhile_cons, List.dropWhile_cons, hc, ih'.1, ih'.2]

/-! ### splitSlash structure -/

/-- Left inverse of `splitSlash`, used to reason about its output. -/
def joinSlash : List (List Char) → List Char
  | [] => []
  | [x] => x
  | x :: xs => x ++ '/' :: joinSlash xs

lemma splitSlash_ne_nil (l : List Char) : splitSlash l ≠ [] := by
  cases l with
  | nil => simp [splitSlash]
  | cons c rest =>
    unfold splitSlash
    split
    · simp
    · cases h : splitSlash rest <;> simp

lemma joinSlash_cons_cons (x y : List Char) (ys : List (List Char)) :
    joinSlash (x :: y :: ys) = x ++ '/' :: joinSlash (y :: ys) := rfl

lemma splitSlash_join (l : List Char) : joinSlash (splitSlash l) = l := by
  induction l with
  | nil => rfl
  | cons c rest ih =>
    unfold splitSlash
    split
    · rename_i hc
      subst hc
      rcases hs : splitSlash rest with _ | ⟨h0, t0⟩
      · exact absurd hs (splitSlash_ne_nil rest)
      · rw [hs] at ih
        rw [joinSlash_cons_cons, ← ih]
        simp
    · rcases hs : splitSlash rest with _ | ⟨h0, t0⟩
      · exact absurd hs (splitSlash_ne_nil rest)
      · rw [hs] at ih
        cases t0 with
        | nil => simpa [joinSlash] using congrArg (c :: ·) ih
        | cons t1 ts =>
          rw [joinSlash_cons_cons] at ih ⊢
          simpa using congrArg (c :: ·) ih

lemma splitSlash_pair {l e0 e1 : List Char} (h : splitSlash l = [e0, e1]) :
    l = e0 ++ '/' :: e1 := by
  have := splitSlash_join l
  rw [h, joinSlash_cons_cons] at this
  simpa [joinSlash] using this.symm

lemma splitSlash_no_slash {l : List Char} :
    ∀ part ∈ splitSlash l, ∀ c ∈ part, c ≠ '/' := by
  induction l with
  | nil => simp [splitSlash]
  | cons c rest ih =>
    unfold splitSlash
    split
    · intro part hp
      rcases List.mem_cons.mp hp with hp | hp
      · simp [hp]
      · exact ih part hp
    · rename_i hc
      rcases hs : splitSlash rest with _ | ⟨h0, t0⟩
      · exact absurd hs (splitSlash_ne_nil rest)
      · rw [hs] at ih
        intro part hp
        rcases List.mem_cons.mp hp with hp | hp
        · subst hp
          intro d hd
          rcases List.mem_cons.mp hd with hd | hd
          · subst hd; exact hc
          · exact ih h0 (List.mem_cons_self _ _) d hd
        · exact ih part (List.mem_cons_of_mem _ hp)

lemma splitSlash_length (l : List Char) :
    (splitSlash l).length = l.count '/' + 1 := by
  induction l with
  | nil => simp [splitSlash]
  | cons c rest ih =>
    unfold splitSlash
    split
    · rename_i hc
      subst hc
      simp [List.count_cons, ih]
    · rename_i hc
      rcases hs : splitSlash rest with _ | ⟨h0, t0⟩
      · exact absurd hs (splitSlash_ne_nil rest)
      · rw [hs] at ih
        simp only [List.length_cons] at ih ⊢
        rw [List.count_cons]
        simp [ih, hc, Ne.symm hc]

/-! ### Structure of successful normalization -/

lemma normalizeType_ok {v t : String} (h : normalizeType v = .ok t) :
    isTypeSubtype (trimJs (v.toList.takeWhile (fun c => c ≠ ';'))) = true ∧
    paramsOk (v.toList.dropWhile (fun c => c ≠ ';')) = true ∧
    t = String.mk ((trimJs (v.toList.takeWhile (fun c => c ≠ ';'))).map lowerChar) := by
  unfold normalizeType at h
  split at h
  · rename_i hcond
    rw [Bool.and_eq_true] at hcond
    exact ⟨hcond.1, hcond.2, (Except.ok.injEq _ _).mp h |>.symm⟩
  · cases h

lemma tryNormalizeType_some {a : Option String} {na : String}
    (h : tryNormalizeType a = some na) :
    ∃ v, a = some v ∧ v ≠ "" ∧ normalizeType v = .ok na := by
  cases a with
  | none => cases h
  | some v =>
    refine ⟨v, rfl, ?_⟩
    simp only [tryNormalizeType] at h
    split at h
    · cases h
    · rename_i hne
      cases hn : normalizeType v with
      | ok s => rw [hn] at h; cases h; exact ⟨hne, rfl⟩
      | error e => rw [hn] at h; cases h

lemma no_upper_of_tryNormalize {a : Option String} {na : String}
    (h : tryNormalizeType a = some na) :
    ∀ c ∈ na.toList, isUpperAscii c = false := by
  obtain ⟨v, -, -, hok⟩ := tryNormalizeType_some h
  obtain ⟨-, -, hmk⟩ := normalizeType_ok hok
  subst hmk
  intro c hc
  obtain ⟨d, -, hd⟩ := List.mem_map.mp hc
  rw [← hd]
  exact lowerChar_not_upper d

lemma isLoopX_eq_ok (actual : String) (ps : List PatToken) :
    isLoopX actual ps = .ok (isLoop actual ps) := by
  induction ps with
  | nil => rfl
  | cons t rest ih =>
    unfold isLoopX isLoop
    cases hm : mimeMatch (normalize t) actual with
    | false => simpa [hm] using ih
    | true =>
      cases t with
      | str s => simp [hm, matchResult]
      | other => simp [normalize, mimeMatch] at hm

/-! ### The claims -/

/-- C1: for every header map and pattern list, `typeIs` returns `null`
(modelled `none`) exactly when `hasBody` is false, and otherwise returns
exactly `is` applied to the `content-type` header value and the same
pattern list. -/
theorem typeIs_null_iff_noBody (h : Headers) (ps : List PatToken) :
    (typeIs h ps = none ↔ hasBody h = false) ∧
    (hasBody h = true → typeIs h ps = some (is (hLookup h "content-type") ps)) := by
  cases hb : hasBody h <;> simp [typeIs, hb]

/-- Witness for C1: a header map without framing headers yields `null`
even with a content type present in the pattern sense, and a chunked
request delegates to `is`. -/
theorem typeIs_null_iff_noBody_inst :
    typeIs [("content-type", "text/html")] [PatToken.str "text/*"] = none ∧
    typeIs [("transfer-encoding", "chunked"), ("content-type", "text/html")]
        [PatToken.str "text/*"] =
      some (is (some "text/html") [PatToken.str "text/*"]) := by
  constructor
  · exact (typeIs_null_iff_noBody [("content-type", "text/html")]
      [PatToken.str "text/*"]).1.mpr (by decide)
  · have h2 := (typeIs_null_iff_noBody
      [("transfer-encoding", "chunked"), ("content-type", "text/html")]
      [PatToken.str "text/*"]).2 (by decide)
    rw [h2]
    rfl

/-- C6: `hasBody` is true exactly when the `transfer-encoding` key is
present (with any value, including the empty string), or the
`content-length` key is present with a value that parses as a JavaScript
number (`"0"` counts, `"bogus"` does not). -/
theorem hasBody_iff (h : Headers) :
    hasBody h = true ↔
      ((hLookup h "transfer-encoding").isSome = true ∨
        ∃ s, hLookup h "content-length" = some s ∧ toNumberOk s = true) := by
  unfold hasBody jsIsNaNStr
  cases hte : hLookup h "transfer-encoding" <;>
    cases hcl : hLookup h "content-length" <;>
      simp

/-- C10: when `transfer-encoding` is absent and `content-length` is the
empty string or whitespace-only, `hasBody` is still true, because such a
string coerces to the number `0`, not `NaN`. -/
theorem hasBody_ws_content_length (h : Headers) (s : String)
    (hte : hLookup h "transfer-encoding" = none)
    (hcl : hLookup h "content-length" = some s)
    (hws : ∀ c ∈ s.toList, isJsWs c = true) : hasBody h = true := by
  unfold hasBody jsIsNaNStr
  rw [hte, hcl]
  suffices hok : toNumberOk s = true by simp [hok]
  unfold toNumberOk
  rw [trimJs_of_all_ws hws]
  rfl

/-- Witness for C10: a header map whose only framing header is an empty
`content-length` has a body. -/
theorem hasBody_ws_content_length_inst :
    hasBody [("content-length", "")] = true :=
  hasBody_ws_content_length [("content-length", "")] ""
    (by decide) (by decide) (by decide)

/-- C7: no input makes `is` or `typeIs` raise a JavaScript exception: the
`Except`-instrumented versions always succeed and agree with the pure
functions (content-type parse errors are caught inside
`tryNormalizeType`), and a non-string pattern entry never matches. -/
theorem no_exception_total :
    (∀ a ps, isX a ps = Except.ok (is a ps)) ∧
    (∀ h ps, typeIsX h ps = Except.ok (typeIs h ps)) ∧
    (∀ actual, mimeMatch (normalize PatToken.other) actual = false) := by
  have hIs : ∀ a ps, isX a ps = Except.ok (is a ps) := by
    intro a ps
    unfold isX is
    cases tryNormalizeType a with
    | none => rfl
    | some actual =>
      cases ps with
      | nil => rfl
      | cons t rest => exact isLoopX_eq_ok actual (t :: rest)
  refine ⟨hIs, ?_, ?_⟩
  · intro h ps
    unfold typeIsX typeIs
    cases hb : hasBody h with
    | false => simp
    | true => simp [hIs]
  · intro actual
    rfl

lemma isLoop_eq_find (actual : String) (ps : List PatToken) :
    isLoop actual ps =
      (ps.find? (fun t => mimeMatch (normalize t) actual)).map
        (fun t => matchResult t actual) := by
  induction ps with
  | nil => rfl
  | cons t rest ih =>
    unfold isLoop
    rw [List.find?_cons]
    cases hm : mimeMatch (normalize t) actual <;> simp [hm, ih]

/-- C3: when some pattern matches, `is` returns the normalized actual
media type if the original matching token starts with `+` or contains a
`*`, and otherwise returns the original matching token verbatim. -/
theorem is_first_match_result (a : Option String) (na s : String) (ps : List PatToken)
    (h1 : tryNormalizeType a = some na)
    (h2 : ps.find? (fun t => mimeMatch (normalize t) na) = some (PatToken.str s)) :
    is a ps = some (if jsFirstCharIs s '+' || jsContainsChar s '*' then na else s) := by
  unfold is
  rw [h1]
  cases ps with
  | nil => cases h2
  | cons t rest =>
    show isLoop na (t :: rest) = _
    rw [isLoop_eq_find, h2]
    rfl

/-- Witness for C3: a bare extension pattern is returned verbatim, a
wildcard pattern yields the normalized actual type, and a `+suffix`
pattern yields the normalized actual type. -/
theorem is_first_match_result_inst :
    is (some "image/png") [PatToken.str ".png"] = some ".png" ∧
    is (some "image/png") [PatToken.str "image/*"] = some "image/png" ∧
    is (some "application/vnd+json") [PatToken.str "+json"] = some "application/vnd+json" := by
  refine ⟨?_, ?_, ?_⟩
  · exact (is_first_match_result (some "image/png") "image/png" ".png"
      [PatToken.str ".png"] (by decide) (by decide)).trans (by decide)
  · exact (is_first_match_result (some "image/png") "image/png" "image/*"
      [PatToken.str "image/*"] (by decide) (by decide)).trans (by decide)
  · exact (is_first_match_result (some "application/vnd+json") "application/vnd+json"
      "+json" [PatToken.str "+json"] (by decide) (by decide)).trans (by decide)

lemma isLoop_append_first_match (na : String) (pre : List PatToken) (t : PatToken)
    (post : List PatToken)
    (h2 : ∀ p ∈ pre, mimeMatch (normalize p) na = false)
    (h3 : mimeMatch (normalize t) na = true) :
    isLoop na (pre ++ t :: post) = some (matchResult t na) := by
  induction pre with
  | nil => simp [isLoop, h3]
  | cons p pre' ih =>
    have hp : mimeMatch (normalize p) na = false := h2 p (List.mem_cons_self _ _)
    simp only [List.cons_append, isLoop, hp, Bool.false_eq_true, if_false]
    exact ih (fun q hq => h2 q (List.mem_cons_of_mem _ hq))

/-- C4: first-match-wins — when no pattern before `t` matches and `t`
matches, the result of `is` is the evaluation of `t`, and the patterns
after `t` have no effect on the result. -/
theorem is_first_match_wins (a : Option String) (na : String) (pre : List PatToken)
    (t : PatToken) (post : List PatToken)
    (h1 : tryNormalizeType a = some na)
    (h2 : ∀ p ∈ pre, mimeMatch (normalize p) na = false)
    (h3 : mimeMatch (normalize t) na = true) :
    is a (pre ++ t :: post) = some (matchResult t na) ∧
    is a (pre ++ t :: post) = is a (pre ++ [t]) := by
  have key : ∀ post2, is a (pre ++ t :: post2) = some (matchResult t na) := by
    intro post2
    have hl := isLoop_append_first_match na pre t post2 h2 h3
    unfold is
    rw [h1]
    cases pre with
    | nil => simpa using hl
    | cons p pre'' => simpa using hl
  exact ⟨key post, (key post).trans (key []).symm⟩

/-- Witness for C4: with patterns `[text/*, image/*, png]` against
`image/png`, the first matching pattern `image/*` decides the result and
the trailing `png` pattern is irrelevant. -/
theorem is_first_match_wins_inst :
    is (some "image/png") [PatToken.str "text/*", PatToken.str "image/*", PatToken.str "png"] =
      some "image/png" ∧
    is (some "image/png") [PatToken.str "text/*", PatToken.str "image/*", PatToken.str "png"] =
      is (some "image/png") [PatToken.str "text/*", PatToken.str "image/*"] := by
  have h := is_first_match_wins (some "image/png") "image/png" [PatToken.str "text/*"]
    (PatToken.str "image/*") [PatToken.str "png"] (by decide) (by decide) (by decide)
  exact ⟨h.1.trans (by decide), h.2⟩

/-- C5: for a two-segment pattern whose subtype starts with `*+` and a
two-segment actual type whose type segment is accepted, `mimeMatch`
succeeds exactly when the pattern subtype is at most one character longer
than the actual subtype and the pattern subtype minus its leading `*`
equals the trailing characters of the actual subtype of that length. -/
theorem mimeMatch_suffix_wildcard (exp act : String) (e0 e1 a0 a1 : List Char)
    (hse : splitSlash exp.toList = [e0, e1])
    (hsa : splitSlash act.toList = [a0, a1])
    (hsuf : e1.take 2 = ['*', '+'])
    (htype : e0 = ['*'] ∨ e0 = a0) :
    (mimeMatch (some exp) act = true ↔
      (e1.length ≤ a1.length + 1 ∧
       e1.drop 1 = a1.drop (a1.length - (e1.length - 1)))) := by
  have hlen : 2 ≤ e1.length := by
    have hc := congrArg List.length hsuf
    simp only [List.length_take] at hc
    simp at hc
    omega
  have hslice : jsSliceFrom a1 (1 - (e1.length : Int)) =
      a1.drop (a1.length - (e1.length - 1)) := by
    simp only [jsSliceFrom]
    have hneg : (1 : Int) - (e1.length : Int) < 0 := by omega
    rw [if_pos hneg]
    congr 1
    omega
  unfold mimeMatch
  dsimp only
  rw [hse, hsa]
  dsimp only
  have hcond : ¬(e0 ≠ ['*'] ∧ e0 ≠ a0) := by tauto
  rw [if_neg hcond, if_pos hsuf, hslice, decide_eq_true_iff]

/-- Witness for C5: `*/*+xml` accepts `text/html+xml` and rejects
`text/html`. -/
theorem mimeMatch_suffix_wildcard_inst :
    mimeMatch (some "*/*+xml") "text/html+xml" = true ∧
    mimeMatch (some "*/*+xml") "text/html" = false := by
  constructor
  · exact (mimeMatch_suffix_wildcard "*/*+xml" "text/html+xml" ['*']
      ['*', '+', 'x', 'm', 'l'] "text".toList "html+xml".toList
      (by decide) (by decide) (by decide) (Or.inl rfl)).mpr (by decide)
  · have h := mimeMatch_suffix_wildcard "*/*+xml" "text/html" ['*']
      ['*', '+', 'x', 'm', 'l'] "text".toList "html".toList
      (by decide) (by decide) (by decide) (Or.inl rfl)
    have hne : ¬(mimeMatch (some "*/*+xml") "text/html" = true) := by
      intro hm
      have hr := h.mp hm
      revert hr
      decide
    cases hmm : mimeMatch (some "*/*+xml") "text/html"
    · rfl
    · exact absurd hmm hne

lemma normalizeType_err_of_no_slash {v : String}
    (h : v.toList.contains '/' = false) : normalizeType v = .error () := by
  have hmem : '/' ∉ v.toList := fun hm => by
    have ht : v.toList.contains '/' = true := List.elem_iff.mpr hm
    rw [ht] at h; cases h
  have hty : (trimJs (v.toList.takeWhile (fun c => c ≠ ';'))).contains '/' = false := by
    cases hc : (trimJs (v.toList.takeWhile (fun c => c ≠ ';'))).contains '/' with
    | false => rfl
    | true =>
      exfalso
      have hm := List.elem_iff.mp hc
      have hsub := (trimJs_sublist (v.toList.takeWhile (fun c => c ≠ ';'))).trans
        (List.takeWhile_sublist _)
      exact hmem (hsub.mem hm)
  unfold normalizeType
  rw [if_neg]
  intro hcond
  rw [Bool.and_eq_true] at hcond
  have h1 := hcond.1
  simp only [isTypeSubtype, Bool.and_eq_true] at h1
  rw [hty] at h1
  exact absurd h1.1.1.1.1 (by decide)

lemma tryNormalizeType_none_of_err {v : String}
    (h : normalizeType v = .error ()) : tryNormalizeType (some v) = none := by
  simp [tryNormalizeType, h]

/-- C2 counterexample: the claim that every actual value without exactly
one `/` fails normalization is false — a slash inside a quoted parameter
value is accepted, so this value with two slashes still matches `*/*` and
`is` returns the normalized type instead of `false`. -/
theorem is_quoted_param_slash :
    ("text/html; p=\"/\"").toList.count '/' = 2 ∧
    is (some "text/html; p=\"/\"") [PatToken.str "*/*"] = some "text/html" := by
  decide

/-- C2 (amended): for every pattern list, `is` returns `false` when the
actual argument is `null`/`undefined`, empty, or fails media-type
normalization — in particular when it contains no `/` at all (values with
extra slashes inside quoted parameters may still normalize) — and when
normalization succeeds and the pattern list is empty, `is` returns the
normalized actual media type. -/
theorem is_invalid_actual_false (ps : List PatToken) :
    is none ps = none ∧
    is (some "") ps = none ∧
    (∀ v, tryNormalizeType (some v) = none → is (some v) ps = none) ∧
    (∀ v, v.toList.contains '/' = false → is (some v) ps = none) ∧
    (∀ v na, tryNormalizeType (some v) = some na → is (some v) [] = some na) := by
  have h3 : ∀ v, tryNormalizeType (some v) = none → is (some v) ps = none := by
    intro v hv
    unfold is
    rw [hv]
  refine ⟨rfl, h3 "" rfl, h3, ?_, ?_⟩
  · intro v hv
    exact h3 v (tryNormalizeType_none_of_err (normalizeType_err_of_no_slash hv))
  · intro v na hv
    unfold is
    rw [hv]

/-- Witness for C2: `bogus` (no slash) is rejected even against `*/*`,
and a valid parameterised type with an empty pattern list yields its
normalized form. -/
theorem is_invalid_actual_false_inst :
    is (some "bogus") [PatToken.str "*/*"] = none ∧
    is (some "text/html; charset=utf-8") [] = some "text/html" := by
  have h := is_invalid_actual_false [PatToken.str "*/*"]
  exact ⟨h.2.2.2.1 "bogus" (by decide),
         h.2.2.2.2 "text/html; charset=utf-8" "text/html" (by decide)⟩

lemma not_isEmpty_of_ne {α : Type} {l : List α} (h : l ≠ []) : (!l.isEmpty) = true := by
  cases l with
  | nil => exact absurd rfl h
  | cons c cs => rfl

lemma slash_decomp {l : List Char} (h : '/' ∈ l) :
    l = l.takeWhile (fun c => c ≠ '/') ++ '/' :: (l.dropWhile (fun c => c ≠ '/')).drop 1 := by
  induction l with
  | nil => cases h
  | cons c rest ih =>
    by_cases hc : c = '/'
    · subst hc
      rw [List.takeWhile_cons_of_neg (by simp), List.dropWhile_cons_of_neg (by simp)]
      rfl
    · have hm : '/' ∈ rest := by
        rcases List.mem_cons.mp h with h' | h'
        · exact absurd h'.symm hc
        · exact h'
      have hp : (fun c => decide (c ≠ '/')) c = true := by simp [hc]
      rw [List.takeWhile_cons_of_pos (p := fun c => decide (c ≠ '/')) hp,
        List.dropWhile_cons_of_pos (p := fun c => decide (c ≠ '/')) hp, List.cons_append]
      exact congrArg (c :: ·) (ih hm)

/-- C8: media-type normalization is idempotent — normalizing a successful
output returns it unchanged — and the output never contains a parameter
separator (all parameters are stripped). -/
theorem normalizeType_idempotent (v t : String)
    (h : tryNormalizeType (some v) = some t) :
    tryNormalizeType (some t) = some t ∧ ∀ c ∈ t.toList, c ≠ ';' := by
  obtain ⟨v', hv', hne, hok⟩ := tryNormalizeType_some h
  injection hv' with hv2
  subst hv2
  obtain ⟨hts, hpar, hmk⟩ := normalizeType_ok hok
  set ty := trimJs (v.toList.takeWhile (fun c => c ≠ ';')) with hty
  simp only [isTypeSubtype, Bool.and_eq_true] at hts
  obtain ⟨⟨⟨⟨hcon, hpre⟩, hpost⟩, hpretok⟩, hposttok⟩ := hts
  set pre0 := ty.takeWhile (fun c => c ≠ '/') with hpre0def
  set post0 := (ty.dropWhile (fun c => c ≠ '/')).drop 1 with hpost0def
  have hdec : ty = pre0 ++ '/' :: post0 := slash_decomp (List.elem_iff.mp hcon)
  have hpretok' : ∀ c ∈ pre0, isTokenChar c = true := List.all_eq_true.mp hpretok
  have hposttok' : ∀ c ∈ post0, isTokenChar c = true := List.all_eq_true.mp hposttok
  have hpre0ne : pre0 ≠ [] := by
    intro he; rw [he] at hpre; exact absurd hpre (by decide)
  have hpost0ne : post0 ≠ [] := by
    intro he; rw [he] at hpost; exact absurd hpost (by decide)
  have hL : t.toList = pre0.map lowerChar ++ '/' :: post0.map lowerChar := by
    have h0 : t.toList = ty.map lowerChar := by rw [hmk]; rfl
    rw [h0, hdec, List.map_append, List.map_cons,
      show lowerChar '/' = '/' from by decide]
  have htok : ∀ c ∈ t.toList, isTokenChar c = true ∨ c = '/' := by
    rw [hL]
    intro c hc
    rcases List.mem_append.mp hc with hc | hc
    · obtain ⟨d, hd, rfl⟩ := List.mem_map.mp hc
      exact Or.inl (isTokenChar_lowerChar (hpretok' d hd))
    · rcases List.mem_cons.mp hc with rfl | hc
      · exact Or.inr rfl
      · obtain ⟨d, hd, rfl⟩ := List.mem_map.mp hc
        exact Or.inl (isTokenChar_lowerChar (hposttok' d hd))
  have hnosemi : ∀ c ∈ t.toList, c ≠ ';' := by
    intro c hc
    rcases htok c hc with htc | rfl
    · exact isTokenChar_ne htc (by decide)
    · decide
  have hnows : ∀ c ∈ t.toList, isJsWs c = false := by
    intro c hc
    rcases htok c hc with htc | rfl
    · exact isTokenChar_not_ws htc
    · decide
  refine ⟨?_, hnosemi⟩
  have htne : t ≠ "" := by
    intro he
    have h0 : t.toList = [] := by rw [he]; rfl
    rw [hL] at h0
    simp at h0
  have htake : t.toList.takeWhile (fun c => c ≠ ';') = t.toList :=
    takeWhile_of_all (fun c hc => by simpa using hnosemi c hc)
  have hdropp : t.toList.dropWhile (fun c => c ≠ ';') = [] :=
    List.dropWhile_eq_nil_iff.mpr (fun c hc => by simpa using hnosemi c hc)
  have htrim : trimJs t.toList = t.toList := trimJs_of_no_ws hnows
  have hA : ∀ c ∈ pre0.map lowerChar, (fun c => decide (c ≠ '/')) c = true := by
    intro c hc
    obtain ⟨d, hd, rfl⟩ := List.mem_map.mp hc
    simpa using isTokenChar_ne (isTokenChar_lowerChar (hpretok' d hd)) (by decide)
  have hmid := takeWhile_middle (p := fun c => decide (c ≠ '/')) '/'
    (post0.map lowerChar) hA (by simp)
  have hAne : pre0.map lowerChar ≠ [] := by
    simpa using hpre0ne
  have hBne : post0.map lowerChar ≠ [] := by
    simpa using hpost0ne
  have hists : isTypeSubtype t.toList = true := by
    simp only [isTypeSubtype]
    rw [hL, hmid.1, hmid.2]
    have hcont : (pre0.map lowerChar ++ '/' :: post0.map lowerChar).contains '/' = true :=
      List.elem_iff.mpr (by simp)
    rw [hcont, not_isEmpty_of_ne hAne, List.drop_one, List.tail_cons,
      not_isEmpty_of_ne hBne]
    have hAall : (pre0.map lowerChar).all isTokenChar = true :=
      List.all_eq_true.mpr (fun c hc => by
        obtain ⟨d, hd, rfl⟩ := List.mem_map.mp hc
        exact isTokenChar_lowerChar (hpretok' d hd))
    have hBall : (post0.map lowerChar).all isTokenChar = true :=
      List.all_eq_true.mpr (fun c hc => by
        obtain ⟨d, hd, rfl⟩ := List.mem_map.mp hc
        exact isTokenChar_lowerChar (hposttok' d hd))
    rw [hAall, hBall]
    rfl
  have hmap : t.toList.map lowerChar = t.toList := by
    conv_lhs => rw [hL]
    conv_rhs => rw [hL]
    rw [List.map_append, List.map_cons, List.map_map, List.map_map,
      show lowerChar '/' = '/' from by decide]
    congr 1
    · exact List.map_congr_left (fun d _ => lowerChar_idem d)
    · congr 1
      exact List.map_congr_left (fun d _ => lowerChar_idem d)
  have hnorm : normalizeType t = .ok t := by
    unfold normalizeType
    rw [htake, htrim, hdropp, hists]
    have hmk2 : String.mk (t.toList.map lowerChar) = t := by
      rw [hmap]
      rfl
    show Except.ok (String.mk (t.toList.map lowerChar)) = Except.ok t
    exact congrArg Except.ok hmk2
  simp [tryNormalizeType, htne, hnorm]

/-- Witness for C8: a mixed-case parameterised value normalizes to
`text/html`, which renormalizes to itself and contains no parameters. -/
theorem normalizeType_idempotent_inst :
    tryNormalizeType (some "Text/HTML; charset=utf-8") = some "text/html" ∧
    tryNormalizeType (some "text/html") = some "text/html" ∧
    (∀ c ∈ "text/html".toList, c ≠ ';') := by
  have h := normalizeType_idempotent "Text/HTML; charset=utf-8" "text/html" (by decide)
  exact ⟨by decide, h.1, h.2⟩

lemma take_two_star_plus {e1 : List Char} (h : e1.take 2 = ['*', '+']) :
    ∃ r, e1 = '*' :: '+' :: r := by
  cases e1 with
  | nil => cases h
  | cons x rest =>
    cases rest with
    | nil => cases h
    | cons y r =>
      simp [List.take] at h
      exact ⟨r, by rw [h.1, h.2]⟩

lemma upper_notin_of_all_not {u : Char} {l : List Char} (hu : isUpperAscii u = true)
    (hl : ∀ c ∈ l, isUpperAscii c = false) : u ∉ l := by
  intro hm
  rw [hl u hm] at hu
  cases hu

lemma mimeMatch_upper_false {s na : String}
    (hs : jsContainsChar s '/' = true)
    (hup : s.toList.any isUpperAscii = true)
    (hna : ∀ c ∈ na.toList, isUpperAscii c = false) :
    mimeMatch (normalize (PatToken.str s)) na = false := by
  obtain ⟨u, humem, hu⟩ := List.any_eq_true.mp hup
  have hurl : s ≠ "urlencoded" := fun he => by
    subst he; exact absurd hs (by decide)
  have hmul : s ≠ "multipart" := fun he => by
    subst he; exact absurd hs (by decide)
  have hcount : 0 < s.toList.count '/' :=
    List.count_pos_iff.mpr (List.elem_iff.mp hs)
  simp only [normalize]
  rw [if_neg hurl, if_neg hmul]
  by_cases hplus : jsFirstCharIs s '+' = true
  · rw [if_pos hplus]
    -- the `+` expansion gains a second slash, so the split has at least
    -- three segments and the match falls through to `false`
    have htl : ("*/*" ++ s).toList = '*' :: '/' :: '*' :: s.toList :=
      String.data_append "*/*" s
    have hge : 3 ≤ (splitSlash ("*/*" ++ s).toList).length := by
      have hc : ('*' :: '/' :: '*' :: s.toList).count '/' = s.toList.count '/' + 1 := by
        simp [List.count_cons]
      rw [htl, splitSlash_length, hc]
      omega
    unfold mimeMatch
    dsimp only
    rcases hsp : splitSlash ("*/*" ++ s).toList with _ | ⟨p0, _ | ⟨p1, _ | ⟨p2, prest⟩⟩⟩
    · rfl
    · rfl
    · exfalso; rw [hsp] at hge; simp at hge
    · rfl
  · rw [if_neg hplus, if_pos hs]
    unfold mimeMatch
    dsimp only
    rcases hse : splitSlash s.toList with _ | ⟨e0, _ | ⟨e1, _ | ⟨e2, erest⟩⟩⟩
    · rfl
    · rfl
    · rcases hsa : splitSlash na.toList with _ | ⟨a0, _ | ⟨a1, _ | ⟨a2, arest⟩⟩⟩
      · rfl
      · rfl
      · -- the two-segment / two-segment case
        dsimp only
        have hjs : s.toList = e0 ++ '/' :: e1 := splitSlash_pair hse
        have hja : na.toList = a0 ++ '/' :: a1 := splitSlash_pair hsa
        have ha0 : ∀ c ∈ a0, isUpperAscii c = false := fun c hc =>
          hna c (by rw [hja]; exact List.mem_append_left _ hc)
        have ha1 : ∀ c ∈ a1, isUpperAscii c = false := fun c hc =>
          hna c (by rw [hja]; exact List.mem_append_right _ (List.mem_cons_of_mem _ hc))
        have hu0 : u ∈ e0 ∨ u ∈ e1 := by
          rw [hjs] at humem
          rcases List.mem_append.mp humem with h | h
          · exact Or.inl h
          · rcases List.mem_cons.mp h with rfl | h
            · exact absurd hu (by decide)
            · exact Or.inr h
        by_cases h0 : e0 ≠ ['*'] ∧ e0 ≠ a0
        · rw [if_pos h0]
        · rw [if_neg h0]
          have he0 : e0 = ['*'] ∨ e0 = a0 := by tauto
          have hu1 : u ∈ e1 := by
            rcases hu0 with h | h
            · exfalso
              rcases he0 with rfl | rfl
              · rcases List.mem_singleton.mp h with rfl
                exact absurd hu (by decide)
              · exact upper_notin_of_all_not hu ha0 h
            · exact h
          by_cases hsuf : e1.take 2 = ['*', '+']
          · rw [if_pos hsuf]
            apply decide_eq_false
            rintro ⟨-, heq⟩
            obtain ⟨r2, rfl⟩ := take_two_star_plus hsuf
            have hud : u ∈ List.drop 1 ('*' :: '+' :: r2) := by
              rcases List.mem_cons.mp hu1 with rfl | h
              · exact absurd hu (by decide)
              · exact h
            rw [heq] at hud
            have hua1 : u ∈ a1 := by
              simp only [jsSliceFrom] at hud
              exact List.mem_of_mem_drop hud
            exact upper_notin_of_all_not hu ha1 hua1
          · rw [if_neg hsuf]
            rw [if_pos]
            constructor
            · intro he
              subst he
              rcases List.mem_singleton.mp hu1 with rfl
              exact absurd hu (by decide)
            · intro he
              subst he
              exact upper_notin_of_all_not hu ha1 hu1
      · rfl
    · rfl

/-- C9 counterexample: a pattern token that contains a `/` but starts
with `+` is not passed through normalization unchanged — the `+suffix`
expansion fires first and prefixes `*/*`. -/
theorem normalize_plus_slash_token :
    jsContainsChar "+text/HTML" '/' = true ∧
    normalize (PatToken.str "+text/HTML") = some "*/*+text/HTML" ∧
    normalize (PatToken.str "+text/HTML") ≠ some "+text/HTML" := by
  decide

/-- C9 (amended): pattern tokens containing a `/` and not beginning with
`+` pass through normalization unchanged and are compared
case-sensitively, while the actual media type is always lowercased; hence
a pattern token containing both a `/` and an uppercase ASCII letter never
matches any actual input, while an uppercase bare extension such as
`JSON` still matches because the registry lookup is case-insensitive. -/
theorem pattern_case_sensitive :
    (∀ s : String, jsContainsChar s '/' = true → jsFirstCharIs s '+' = false →
      normalize (PatToken.str s) = some s) ∧
    (∀ (a : Option String) (s : String), jsContainsChar s '/' = true →
      s.toList.any isUpperAscii = true → is a [PatToken.str s] = none) ∧
    is (some "application/json") [PatToken.str "JSON"] = some "JSON" := by
  refine ⟨?_, ?_, by decide⟩
  · intro s hs hplus
    have hurl : s ≠ "urlencoded" := fun he => by
      subst he; exact absurd hs (by decide)
    have hmul : s ≠ "multipart" := fun he => by
      subst he; exact absurd hs (by decide)
    simp only [normalize]
    rw [if_neg hurl, if_neg hmul, hplus, hs]
    simp
  · intro a s hs hup
    unfold is
    cases htry : tryNormalizeType a with
    | none => rfl
    | some na =>
      have hna := no_upper_of_tryNormalize htry
      have hmm := mimeMatch_upper_false hs hup hna
      show isLoop na [PatToken.str s] = none
      simp [isLoop, hmm]

/-- Witness for C9: `text/HTML` passes through normalization unchanged,
yet matches nothing — not even itself — while the uppercase bare
extension pattern `JSON` does match `application/json`. -/
theorem pattern_case_sensitive_inst :
    normalize (PatToken.str "text/HTML") = some "text/HTML" ∧
    is (some "text/HTML") [PatToken.str "text/HTML"] = none := by
  have h := pattern_case_sensitive
  exact ⟨h.1 "text/HTML" (by decide) (by decide),
         h.2.1 (some "text/HTML") "text/HTML" (by decide) (by decide)⟩

end TypeIs
